import Mathlib

/-!
# dtwclust: sparse distance-matrix index deduplication and the distmat loop

A shallow embedding of `src/misc/SparseDistmatIndices.cpp` and
`src/distmat-loop.cpp`, with the properties of the specification stated and
proved over it.

Conventions of the embedding:

* a C++ `int` is an `Int`; every arithmetic result is brought back into the
  32-bit two's-complement range by `wrapInt` (signed overflow is taken to wrap
  around), and agrees with the integer result whenever that fits in an `int`;
* `std::unordered_set<int>` is a `Finset Int` (only `find` and `insert` are
  used, so iteration order is never observed);
* `std::vector<int>` and `Rcpp::IntegerVector` are `List Int`, `push_back`
  appends at the end;
* the returned `Rcpp::IntegerMatrix` with two columns is the list of its rows.
-/

namespace dtwclust

/-! ## Machine integers -/

/-- The value of an `int` expression whose mathematical result is `x`:
`x` reduced into `[-2^31, 2^31)`. -/
def wrapInt (x : Int) : Int := (x + 2147483648) % 4294967296 - 2147483648

/-! ## SparseDistmatIndices -/

/-- The private members of the class `SparseDistmatIndices`. -/
structure SparseDistmatIndices where
  num_rows_ : Int
  existing_indices_ : Finset Int
  deriving DecidableEq

namespace SparseDistmatIndices

/-- The constructor `SparseDistmatIndices(int num_rows)`: the set starts empty. -/
def new (num_rows : Int) : SparseDistmatIndices :=
  { num_rows_ := num_rows, existing_indices_ := ∅ }

/-- Lines 25-31: the pair `(this_i, this_j)` after the optional swap. -/
def canonPair (symmetric : Bool) (this_i this_j : Int) : Int × Int :=
  if symmetric && decide (this_j > this_i) then (this_j, this_i) else (this_i, this_j)

/-- Line 32: `int ij = this_i + (this_j - 1) * num_rows_;` in `int` arithmetic. -/
def linearKey (num_rows : Int) (this_i this_j : Int) : Int :=
  wrapInt (this_i + wrapInt (wrapInt (this_j - 1) * num_rows))

/-- The variables the two loops of `getNewIndices` update. -/
structure LoopState where
  existing_indices_ : Finset Int
  new_i : List Int
  new_j : List Int

/-- Lines 25-38: the body of the inner loop for `i[ii] = vi` and `j[jj] = vj`. -/
def loopBody (num_rows : Int) (symmetric : Bool) (vi : Int) (st : LoopState) (vj : Int) :
    LoopState :=
  let p := canonPair symmetric vi vj
  let ij := linearKey num_rows p.1 p.2
  if ij ∉ st.existing_indices_ then
    { existing_indices_ := insert ij st.existing_indices_,
      new_i := st.new_i ++ [p.1],
      new_j := st.new_j ++ [p.2] }
  else st

/-- Lines 24-39: the inner loop over `j`. -/
def innerLoop (num_rows : Int) (symmetric : Bool) (j : List Int) (st : LoopState) (vi : Int) :
    LoopState :=
  j.foldl (loopBody num_rows symmetric vi) st

/-- Lines 23-40: the outer loop over `i`. -/
def outerLoop (num_rows : Int) (symmetric : Bool) (i j : List Int) (st : LoopState) :
    LoopState :=
  i.foldl (innerLoop num_rows symmetric j) st

/-- Lines 41-46: the matrix with `new_i.size()` rows, row `k` being
`(new_i[k], new_j[k])`. -/
def buildMatrix (new_i new_j : List Int) : List (Int × Int) :=
  (List.range new_i.length).map (fun k => (new_i.getD k 0, new_j.getD k 0))

/-- The method `getNewIndices(i, j, symmetric)`: the returned matrix (as the list
of its rows) and the instance after the call. -/
def getNewIndices (self : SparseDistmatIndices) (i j : List Int) (symmetric : Bool) :
    List (Int × Int) × SparseDistmatIndices :=
  let st := outerLoop self.num_rows_ symmetric i j
    { existing_indices_ := self.existing_indices_, new_i := [], new_j := [] }
  (buildMatrix st.new_i st.new_j,
   { num_rows_ := self.num_rows_, existing_indices_ := st.existing_indices_ })

/-! ### The candidates of a call and the sequential deduplication

`outerLoop` visits the canonicalised pairs of the product one after the other;
the two functions below describe that traversal on the list of candidates. -/

/-- The pairs `(this_i, this_j)` the loop body sees after the swap, in the order
of the two nested loops. -/
def candidates (symmetric : Bool) (i j : List Int) : List (Int × Int) :=
  i.flatMap fun vi => j.map fun vj => canonPair symmetric vi vj

/-- Key of a row under `num_rows`. -/
def rowKey (num_rows : Int) (p : Int × Int) : Int := linearKey num_rows p.1 p.2

/-- The rows kept when the candidates are visited in order, starting from `seen`. -/
def keptRows (num_rows : Int) : Finset Int → List (Int × Int) → List (Int × Int)
  | _, [] => []
  | seen, p :: ps =>
    if rowKey num_rows p ∉ seen then p :: keptRows num_rows (insert (rowKey num_rows p) seen) ps
    else keptRows num_rows seen ps

/-- The set of keys after the candidates were visited in order, starting from `seen`. -/
def keptSeen (num_rows : Int) : Finset Int → List (Int × Int) → Finset Int
  | seen, [] => seen
  | seen, p :: ps =>
    if rowKey num_rows p ∉ seen then keptSeen num_rows (insert (rowKey num_rows p) seen) ps
    else keptSeen num_rows seen ps

/-! ### The specification's description of `getNewIndices` -/

/-- The Cartesian product `iList × jList`, `i` outer and `j` inner, in input order. -/
def cartesian (iList jList : List Int) : List (Int × Int) :=
  iList.flatMap fun vi => jList.map fun vj => (vi, vj)

/-- The specification's canonicalisation: `(i, j)` becomes `(j, i)` when
`symmetric` is set and `j > i`. -/
def specCanon (symmetric : Bool) (p : Int × Int) : Int × Int :=
  if symmetric = true ∧ p.2 > p.1 then (p.2, p.1) else p

/-- The formula `i + (j - 1) * num_rows` over the integers. -/
def mathKey (num_rows : Int) (p : Int × Int) : Int :=
  p.1 + (p.2 - 1) * num_rows

/-- The `int` value of `i + (j - 1) * num_rows`: the formula reduced into the
range of an `int`. -/
def specKey (num_rows : Int) (p : Int × Int) : Int :=
  wrapInt (mathKey num_rows p)

/-- The specification's result of `getNewIndices`: the canonicalised pairs of the
product, in order, whose key `i + (j - 1) * num_rows` is neither in `seen` nor
the key of an earlier pair of the same product. -/
def specNewIndices (num_rows : Int) (seen : Finset Int) (iList jList : List Int)
    (symmetric : Bool) : List (Int × Int) :=
  let cands := (cartesian iList jList).map (specCanon symmetric)
  (cands.enum.filter fun kp =>
      decide (mathKey num_rows kp.2 ∉ seen) &&
      decide (mathKey num_rows kp.2 ∉ (cands.take kp.1).map (mathKey num_rows))).map Prod.snd

/-- The keys of a list of rows, as a set. -/
def keysOf (num_rows : Int) (rows : List (Int × Int)) : Finset Int :=
  (rows.map (rowKey num_rows)).toFinset

/-! ### Sequences of calls -/

/-- One call of `getNewIndices`: the two index vectors and the flag. -/
structure Call where
  i : List Int
  j : List Int
  symmetric : Bool

/-- Run the calls in order on one instance; the rows returned by all the calls,
in order, and the instance at the end. -/
def runCalls : SparseDistmatIndices → List Call → List (Int × Int) × SparseDistmatIndices
  | self, [] => ([], self)
  | self, c :: cs =>
    let r := self.getNewIndices c.i c.j c.symmetric
    let rest := runCalls r.2 cs
    (r.1 ++ rest.1, rest.2)

/-! ### Index ranges -/

/-- The values an `int` can hold. -/
def fitsInt (x : Int) : Prop := -2147483648 ≤ x ∧ x < 2147483648

instance (x : Int) : Decidable (fitsInt x) := by
  unfold fitsInt
  infer_instance

/-- A row `(i, j)` whose row index lies in `[1..num_rows]` and whose key
`i + (j - 1) * num_rows` is a value an `int` can hold. -/
def inRangeRow (num_rows : Int) (p : Int × Int) : Prop :=
  1 ≤ p.1 ∧ p.1 ≤ num_rows ∧ fitsInt (mathKey num_rows p)

instance (num_rows : Int) (p : Int × Int) : Decidable (inRangeRow num_rows p) := by
  unfold inRangeRow
  infer_instance

/-- The index vector `[1..n]`. -/
def oneTo (n : Nat) : List Int := List.map (fun k : Nat => (k : Int)) (List.range' 1 n)

/-- The part of column `c` of an `n × n` matrix on and below the diagonal, top
down: `(c, c), (c+1, c), ..., (n, c)`. -/
def lowerColumn (n c : Nat) : List (Int × Int) :=
  List.map (fun r : Nat => ((r : Int), (c : Int))) (List.range' c (n + 1 - c))

/-- The first `k` columns of the lower triangle of an `n × n` matrix, column
after column. -/
def lowerTriangleColumns (k n : Nat) : List (Int × Int) :=
  (List.range' 1 k).flatMap (lowerColumn n)

/-- The lower triangle of an `n × n` matrix in column-major order:
`(1,1), (2,1), ..., (n,1), (2,2), (3,2), ..., (n,n)`. -/
def lowerTriangleColumnMajor (n : Nat) : List (Int × Int) :=
  lowerTriangleColumns n n

end SparseDistmatIndices

/-! ## distmat_loop -/

/-- A native call that may throw: its outcome (a value or the exception thrown)
and the state of the world after it. What was written before a throw stays
written. -/
abbrev Eff (σ ε α : Type) : Type := σ → Except ε α × σ

/-- The three factories `distmat_loop` calls; their code is not part of the
sources at hand, so they are parameters. `SEXP` is the type of the arguments,
`DM`, `DC` and `DF` are the objects the factories hand out. -/
structure Factories (σ ε SEXP DM DC DF : Type) where
  /-- The call `DistmatFactory().create(MAT_TYPE, D)`. -/
  createDistmat : SEXP → SEXP → Eff σ ε DM
  /-- The call `DistanceCalculatorFactory().create(DIST, DIST_ARGS)`. -/
  createCalculator : SEXP → SEXP → Eff σ ε DC
  /-- The call `DistmatFillerFactory().create(FILL_TYPE, distmat, ENDPOINTS, dist_calculator)`. -/
  createFiller : SEXP → DM → SEXP → DC → Eff σ ε DF

/-- The value `R_NilValue`. -/
inductive RNil where
  | R_NilValue
  deriving DecidableEq, Repr

/-- The entry point `distmat_loop` (lines 5-17). An exception thrown between
`BEGIN_RCPP` and `END_RCPP` ends the body at the throwing statement and is handed
to the caller as the error of the call. `fill` is the method
`distmat_filler->fill(X, Y)`. -/
def distmat_loop {σ ε SEXP DM DC DF : Type} (F : Factories σ ε SEXP DM DC DF)
    (fill : DF → SEXP → SEXP → Eff σ ε Unit)
    (D X Y DIST DIST_ARGS FILL_TYPE MAT_TYPE ENDPOINTS : SEXP) : Eff σ ε RNil :=
  fun s =>
    match F.createDistmat MAT_TYPE D s with
    | (.error e, s1) => (.error e, s1)
    | (.ok distmat, s1) =>
      match F.createCalculator DIST DIST_ARGS s1 with
      | (.error e, s2) => (.error e, s2)
      | (.ok dist_calculator, s2) =>
        match F.createFiller FILL_TYPE distmat ENDPOINTS dist_calculator s2 with
        | (.error e, s3) => (.error e, s3)
        | (.ok distmat_filler, s3) =>
          match fill distmat_filler X Y s3 with
          | (.error e, s4) => (.error e, s4)
          | (.ok _, s4) => (.ok RNil.R_NilValue, s4)

/-! ### The symmetric filler, from the specification

The classes behind the factories are not among the sources; what follows is
their description in the specification (§4.2, §4.3, §7). -/

/-- Modelled from the spec: the error taxonomy of §7, as far as the symmetric
fill raises it (the `Distmat`, `DistanceCalculator` and `DistmatFiller` classes
are missing from the sources). -/
inductive EngineError where
  | DimensionMismatchError
  | IndexOutOfRangeError
  | ComputationError (i j : Nat)
  deriving DecidableEq, Repr

/-- Modelled from the spec: the `Distmat` of §4.2 (class missing from the
sources), a matrix indexed by `(row in [1..R], column in [1..C])`, 1-based, whose
cells hold a value or are unset (`none`). -/
structure Distmat (V : Type) where
  R : Nat
  C : Nat
  cells : Nat → Nat → Option V

/-- Modelled from the spec: `Distmat.set(i, j, value)` of §4.2 (missing from the
sources); outside `[1..R] × [1..C]` it fails with `IndexOutOfRangeError`. -/
def Distmat.set {V : Type} (m : Distmat V) (i j : Nat) (v : V) : Except EngineError (Distmat V) :=
  if 1 ≤ i ∧ i ≤ m.R ∧ 1 ≤ j ∧ j ≤ m.C then
    .ok { m with cells := fun a b => if a = i ∧ b = j then some v else m.cells a b }
  else .error .IndexOutOfRangeError

/-- Modelled from the spec: `Distmat.get(i, j)` of §4.2 (missing from the
sources): value-or-absent, `IndexOutOfRangeError` outside `[1..R] × [1..C]`. -/
def Distmat.get {V : Type} (m : Distmat V) (i j : Nat) : Except EngineError (Option V) :=
  if 1 ≤ i ∧ i ≤ m.R ∧ 1 ≤ j ∧ j ≤ m.C then .ok (m.cells i j)
  else .error .IndexOutOfRangeError

/-- Modelled from the spec: the symmetric `DistmatFiller` of §4.3 (class missing
from the sources); it carries the injected calculator's `distance`, which may
fail on a pair. -/
structure SymmetricFiller (S V : Type) where
  distance : S → S → Except EngineError V

/-- Modelled from the spec: the pairs the symmetric fill of §4.3 visits (code
missing from the sources): `(i, j)` in `[1..n] × [1..n]` with `i ≥ j`. -/
def lowerTriangle (n : Nat) : List (Nat × Nat) :=
  (List.range n).flatMap fun i => (List.range (i + 1)).map fun j => (i + 1, j + 1)

/-- Modelled from the spec: one visit after the other of the symmetric fill of
§4.3 (code missing from the sources): compute `distance(X[i], Y[j])` once and
write it to both `(i, j)` and `(j, i)`; the first failure aborts the fill and
leaves the matrix as it is at that point. -/
def fillCells {S V : Type} (f : SymmetricFiller S V) (X Y : List S) :
    List (Nat × Nat) → Eff (Distmat V) EngineError Unit
  | [], m => (.ok (), m)
  | (i, j) :: rest, m =>
    match X.get? (i - 1), Y.get? (j - 1) with
    | some x, some y =>
      match f.distance x y with
      | .error e => (.error e, m)
      | .ok d =>
        match m.set i j d with
        | .error e => (.error e, m)
        | .ok m1 =>
          match m1.set j i d with
          | .error e => (.error e, m1)
          | .ok m2 => fillCells f X Y rest m2
    | _, _ => (.error .IndexOutOfRangeError, m)

/-- Modelled from the spec: `fill(X, Y)` of the symmetric `DistmatFiller` of §4.3
(code missing from the sources): collections of different length are a
`DimensionMismatchError`, otherwise the lower triangle is visited. -/
def symmetricFill {S V : Type} (f : SymmetricFiller S V) (X Y : List S) :
    Eff (Distmat V) EngineError Unit :=
  fun m =>
    if X.length = Y.length then fillCells f X Y (lowerTriangle X.length) m
    else (.error .DimensionMismatchError, m)

/-! ### Small instances used to exercise the statements -/

/-- Factories over a log of the calls made (the state): each `create` appends its
number to the log when its tag is `0` and throws, leaving the log as it is, for
any other tag. -/
def loggingFactories : Factories (List Nat) Nat Nat Unit Unit Unit where
  createDistmat := fun tag _ log => if tag = 0 then (.ok (), log ++ [1]) else (.error 10, log)
  createCalculator := fun tag _ log => if tag = 0 then (.ok (), log ++ [2]) else (.error 20, log)
  createFiller := fun tag _ _ _ log => if tag = 0 then (.ok (), log ++ [3]) else (.error 30, log)

/-- A `fill` that appends `4` to the log of calls. -/
def loggingFill : Unit → Nat → Nat → Eff (List Nat) Nat Unit :=
  fun _ _ _ log => (.ok (), log ++ [4])

/-- Factories that leave the matrix alone and hand out a symmetric filler whose
distance of two numbers is their sum. -/
def sumFactories :
    Factories (Distmat Nat) EngineError (List Nat) Unit Unit (SymmetricFiller Nat Nat) where
  createDistmat := fun _ _ m => (.ok (), m)
  createCalculator := fun _ _ m => (.ok (), m)
  createFiller := fun _ _ _ _ m => (.ok { distance := fun x y => .ok (x + y) }, m)

/-- An unset matrix with two rows and two columns. -/
def emptyDistmat2 : Distmat Nat := { R := 2, C := 2, cells := fun _ _ => none }

/-- The matrix `emptyDistmat2` after `distmat_loop` ran the symmetric fill of
`sumFactories` on `X = Y = [10, 20]`. -/
def filledDistmat2 : Distmat Nat :=
  (distmat_loop sumFactories (fun f X Y => symmetricFill f (id X) (id Y))
    [] [10, 20] [10, 20] [] [] [] [] [] emptyDistmat2).2

/-! ## Proofs: machine integers -/

theorem wrapInt_emod (x : Int) : wrapInt x % 4294967296 = x % 4294967296 := by
  unfold wrapInt; omega

theorem wrapInt_congr {x y : Int} (h : x % 4294967296 = y % 4294967296) :
    wrapInt x = wrapInt y := by
  unfold wrapInt; omega

theorem wrapInt_of_inRange {x : Int} (h1 : -2147483648 ≤ x) (h2 : x < 2147483648) :
    wrapInt x = x := by
  unfold wrapInt; omega

namespace SparseDistmatIndices

/-- The nested `int` operations of line 32 give the `int` value of the whole
expression. -/
theorem linearKey_eq_wrap (n a b : Int) : linearKey n a b = wrapInt (a + (b - 1) * n) := by
  unfold linearKey
  apply wrapInt_congr
  rw [Int.add_emod, wrapInt_emod, Int.mul_emod (wrapInt (b - 1)), wrapInt_emod,
    ← Int.mul_emod, ← Int.add_emod]

theorem rowKey_eq_specKey (n : Int) (p : Int × Int) : rowKey n p = specKey n p :=
  linearKey_eq_wrap n p.1 p.2

/-- When `i + (j - 1) * num_rows` fits in an `int`, line 32 computes it exactly. -/
theorem linearKey_eq_mathKey_of_inRange (n a b : Int)
    (h1 : -2147483648 ≤ a + (b - 1) * n) (h2 : a + (b - 1) * n < 2147483648) :
    linearKey n a b = mathKey n (a, b) := by
  rw [linearKey_eq_wrap, wrapInt_of_inRange h1 h2, mathKey]

/-! ## Proofs: the loops of `getNewIndices` -/

theorem innerLoop_eq (n : Int) (symmetric : Bool) (vi : Int) (j : List Int) (st : LoopState) :
    innerLoop n symmetric j st vi =
      { existing_indices_ := keptSeen n st.existing_indices_ (j.map (canonPair symmetric vi)),
        new_i := st.new_i ++
          (keptRows n st.existing_indices_ (j.map (canonPair symmetric vi))).map Prod.fst,
        new_j := st.new_j ++
          (keptRows n st.existing_indices_ (j.map (canonPair symmetric vi))).map Prod.snd } := by
  unfold innerLoop
  induction j generalizing st with
  | nil => simp [keptSeen, keptRows]
  | cons vj js ih =>
    rw [List.foldl_cons, ih]
    by_cases h : linearKey n (canonPair symmetric vi vj).1 (canonPair symmetric vi vj).2
        ∈ st.existing_indices_
    · simp [loopBody, keptSeen, keptRows, rowKey, h]
    · simp [loopBody, keptSeen, keptRows, rowKey, h]

theorem keptRows_append (n : Int) (seen : Finset Int) (xs ys : List (Int × Int)) :
    keptRows n seen (xs ++ ys) = keptRows n seen xs ++ keptRows n (keptSeen n seen xs) ys := by
  induction xs generalizing seen with
  | nil => simp [keptRows, keptSeen]
  | cons p ps ih =>
    by_cases h : rowKey n p ∈ seen
    · simp [keptRows, keptSeen, h, ih]
    · simp [keptRows, keptSeen, h, ih]

theorem keptSeen_append (n : Int) (seen : Finset Int) (xs ys : List (Int × Int)) :
    keptSeen n seen (xs ++ ys) = keptSeen n (keptSeen n seen xs) ys := by
  induction xs generalizing seen with
  | nil => simp [keptSeen]
  | cons p ps ih =>
    by_cases h : rowKey n p ∈ seen
    · simp [keptSeen, h, ih]
    · simp [keptSeen, h, ih]

theorem outerLoop_eq (n : Int) (symmetric : Bool) (i j : List Int) (st : LoopState) :
    outerLoop n symmetric i j st =
      { existing_indices_ := keptSeen n st.existing_indices_ (candidates symmetric i j),
        new_i := st.new_i ++
          (keptRows n st.existing_indices_ (candidates symmetric i j)).map Prod.fst,
        new_j := st.new_j ++
          (keptRows n st.existing_indices_ (candidates symmetric i j)).map Prod.snd } := by
  unfold outerLoop
  induction i generalizing st with
  | nil => simp [candidates, keptSeen, keptRows]
  | cons vi is ih =>
    rw [List.foldl_cons, ih, innerLoop_eq]
    simp [candidates, keptRows_append, keptSeen_append]

theorem buildMatrix_eq (rows : List (Int × Int)) :
    buildMatrix (rows.map Prod.fst) (rows.map Prod.snd) = rows := by
  unfold buildMatrix
  apply List.ext_getElem
  · simp
  · intro k h1 h2
    simp at h1
    simp [List.getD_eq_getElem?_getD, List.getElem?_eq_getElem h1]

/-- The method in terms of its candidates: the rows kept and the keys recorded. -/
theorem getNewIndices_eq (self : SparseDistmatIndices) (i j : List Int) (symmetric : Bool) :
    self.getNewIndices i j symmetric =
      (keptRows self.num_rows_ self.existing_indices_ (candidates symmetric i j),
       { num_rows_ := self.num_rows_,
         existing_indices_ :=
           keptSeen self.num_rows_ self.existing_indices_ (candidates symmetric i j) }) := by
  unfold getNewIndices
  rw [outerLoop_eq]
  simp [buildMatrix_eq]

/-! ## Proofs: the sequential deduplication -/

theorem keptSeen_eq_union (n : Int) (seen : Finset Int) (cs : List (Int × Int)) :
    keptSeen n seen cs = seen ∪ keysOf n cs := by
  induction cs generalizing seen with
  | nil => simp [keptSeen, keysOf]
  | cons p ps ih =>
    by_cases h : rowKey n p ∈ seen
    · simp only [keptSeen, h, not_true_eq_false, if_false, ih]
      ext k
      simp only [keysOf, List.map_cons, List.toFinset_cons, Finset.mem_union, Finset.mem_insert]
      constructor
      · rintro (hk | hk)
        · exact Or.inl hk
        · exact Or.inr (Or.inr hk)
      · rintro (hk | hk | hk)
        · exact Or.inl hk
        · exact Or.inl (hk ▸ h)
        · exact Or.inr hk
    · simp only [keptSeen, h, not_false_eq_true, if_true, ih]
      ext k
      simp only [keysOf, List.map_cons, List.toFinset_cons, Finset.mem_union, Finset.mem_insert]
      tauto

theorem keptSeen_eq_union_kept (n : Int) (seen : Finset Int) (cs : List (Int × Int)) :
    keptSeen n seen cs = seen ∪ keysOf n (keptRows n seen cs) := by
  induction cs generalizing seen with
  | nil => simp [keptSeen, keptRows, keysOf]
  | cons p ps ih =>
    by_cases h : rowKey n p ∈ seen
    · simp only [keptSeen, keptRows, h, not_true_eq_false, if_false, ih]
    · simp only [keptSeen, keptRows, h, not_false_eq_true, if_true, ih]
      ext k
      simp only [keysOf, List.map_cons, List.toFinset_cons, Finset.mem_union, Finset.mem_insert]
      tauto

theorem keptRows_sublist (n : Int) (seen : Finset Int) (cs : List (Int × Int)) :
    (keptRows n seen cs).Sublist cs := by
  induction cs generalizing seen with
  | nil => simp [keptRows]
  | cons p ps ih =>
    by_cases h : rowKey n p ∈ seen
    · simp only [keptRows, h, not_true_eq_false, if_false]
      exact (ih seen).cons p
    · simp only [keptRows, h, not_false_eq_true, if_true]
      exact (ih _).cons₂ p

theorem keptRows_key_not_mem (n : Int) (seen : Finset Int) (cs : List (Int × Int)) :
    ∀ p ∈ keptRows n seen cs, rowKey n p ∉ seen := by
  induction cs generalizing seen with
  | nil => simp [keptRows]
  | cons q qs ih =>
    intro p hp
    by_cases h : rowKey n q ∈ seen
    · simp only [keptRows, h, not_true_eq_false, if_false] at hp
      exact ih seen p hp
    · simp only [keptRows, h, not_false_eq_true, if_true, List.mem_cons] at hp
      rcases hp with rfl | hp
      · exact h
      · exact fun hk => ih _ p hp (Finset.mem_insert_of_mem hk)

theorem keptRows_keys_nodup (n : Int) (seen : Finset Int) (cs : List (Int × Int)) :
    ((keptRows n seen cs).map (rowKey n)).Nodup := by
  induction cs generalizing seen with
  | nil => simp [keptRows]
  | cons q qs ih =>
    by_cases h : rowKey n q ∈ seen
    · simp only [keptRows, h, not_true_eq_false, if_false]
      exact ih seen
    · simp only [keptRows, h, not_false_eq_true, if_true, List.map_cons, List.nodup_cons]
      refine ⟨?_, ih _⟩
      intro hmem
      obtain ⟨p, hp, hpk⟩ := List.mem_map.1 hmem
      exact keptRows_key_not_mem n _ qs p hp (hpk ▸ Finset.mem_insert_self _ _)

theorem keptRows_eq_nil (n : Int) (seen : Finset Int) (cs : List (Int × Int))
    (h : ∀ p ∈ cs, rowKey n p ∈ seen) : keptRows n seen cs = [] := by
  induction cs with
  | nil => simp [keptRows]
  | cons q qs ih =>
    have hq : rowKey n q ∈ seen := h q (List.mem_cons_self _ _)
    simp only [keptRows, hq, not_true_eq_false, if_false]
    exact ih fun p hp => h p (List.mem_cons_of_mem _ hp)

/-- Every candidate whose key is not yet recorded has its key carried by a kept row. -/
theorem keptRows_key_covered (n : Int) (seen : Finset Int) (cs : List (Int × Int)) :
    ∀ p ∈ cs, rowKey n p ∉ seen → ∃ q ∈ keptRows n seen cs, rowKey n q = rowKey n p := by
  induction cs generalizing seen with
  | nil => simp
  | cons c cs ih =>
    intro p hp hk
    by_cases h : rowKey n c ∈ seen
    · simp only [keptRows, h, not_true_eq_false, if_false]
      rcases List.mem_cons.1 hp with rfl | hp
      · exact absurd h hk
      · exact ih seen p hp hk
    · simp only [keptRows, h, not_false_eq_true, if_true]
      by_cases hpc : rowKey n p = rowKey n c
      · exact ⟨c, List.mem_cons_self _ _, hpc.symm⟩
      · rcases List.mem_cons.1 hp with rfl | hp
        · exact absurd rfl hpc
        · have hk2 : rowKey n p ∉ insert (rowKey n c) seen := by
            simp [Finset.mem_insert, hpc, hk]
          obtain ⟨q, hq, hqk⟩ := ih _ p hp hk2
          exact ⟨q, List.mem_cons_of_mem _ hq, hqk⟩

/-! ## Proofs: the specification's description -/

theorem canonPair_eq_specCanon (symmetric : Bool) (a b : Int) :
    canonPair symmetric a b = specCanon symmetric (a, b) := by
  unfold canonPair specCanon
  cases symmetric <;> simp

theorem candidates_eq (symmetric : Bool) (i j : List Int) :
    candidates symmetric i j = (cartesian i j).map (specCanon symmetric) := by
  unfold candidates cartesian
  induction i with
  | nil => simp
  | cons a as ih =>
    simp only [List.flatMap_cons, List.map_append, List.map_map, ih]
    congr 1
    apply List.map_congr_left
    intro b _
    exact canonPair_eq_specCanon symmetric a b

theorem specKey_eq_rowKey (n : Int) : specKey n = rowKey n :=
  funext fun p => (rowKey_eq_specKey n p).symm

/-- The sequential traversal keeps the candidates whose key is neither recorded
nor carried by an earlier candidate; `pre` are the candidates already visited. -/
theorem keptRows_eq_filter (n : Int) (seen : Finset Int) (pre cs : List (Int × Int)) :
    keptRows n (seen ∪ keysOf n pre) cs =
      ((cs.enumFrom pre.length).filter fun kp =>
        decide (rowKey n kp.2 ∉ seen) &&
        decide (rowKey n kp.2 ∉ ((pre ++ cs).take kp.1).map (rowKey n))).map Prod.snd := by
  induction cs generalizing pre with
  | nil => simp [keptRows]
  | cons c cs ih =>
    have hstep : seen ∪ keysOf n (pre ++ [c]) = insert (rowKey n c) (seen ∪ keysOf n pre) := by
      ext k
      simp only [keysOf, List.map_append, List.map_cons, List.map_nil, List.toFinset_append,
        List.toFinset_cons, List.toFinset_nil, Finset.mem_union, Finset.mem_insert,
        List.mem_toFinset, Finset.not_mem_empty, or_false]
      tauto
    have hih := ih (pre ++ [c])
    simp only [List.length_append, List.length_singleton, List.append_assoc,
      List.singleton_append] at hih
    have hmem : rowKey n c ∈ seen ∪ keysOf n pre ↔
        ¬ (rowKey n c ∉ seen ∧ rowKey n c ∉ pre.map (rowKey n)) := by
      simp only [keysOf, Finset.mem_union, List.mem_toFinset]
      tauto
    rw [List.enumFrom_cons, List.filter_cons]
    by_cases h : rowKey n c ∈ seen ∪ keysOf n pre
    · have h2 := hmem.1 h
      have hcond : (decide (rowKey n c ∉ seen) &&
          decide (rowKey n c ∉ ((pre ++ c :: cs).take pre.length).map (rowKey n))) = false := by
        rw [List.take_left]
        simpa using h2
      simp only [hcond, keptRows, h, not_true_eq_false, if_false, Bool.false_eq_true]
      rw [← hih, hstep, Finset.insert_eq_of_mem h]
    · have h2 : rowKey n c ∉ seen ∧ rowKey n c ∉ pre.map (rowKey n) := by
        by_contra hc
        exact h (hmem.2 hc)
      have hcond : (decide (rowKey n c ∉ seen) &&
          decide (rowKey n c ∉ ((pre ++ c :: cs).take pre.length).map (rowKey n))) = true := by
        rw [List.take_left]
        simpa using h2
      simp only [hcond, keptRows, h, not_false_eq_true, if_true, List.map_cons]
      rw [← hih, hstep]

/-! ## The claims on `getNewIndices` -/

theorem rowKey_eq_mathKey_of_fits {n : Int} {p : Int × Int} (h : fitsInt (mathKey n p)) :
    rowKey n p = mathKey n p :=
  linearKey_eq_mathKey_of_inRange n p.1 p.2 h.1 h.2

/-- C1 as stated fails: with `num_rows = 65536`, `iList = [1]`, `jList = [1, 65537]`
on a fresh instance the keys `i + (j-1)*num_rows` of `(1, 1)` and `(1, 65537)`
are `1` and `2^32 + 1`, so the list the claim describes is both pairs, while
`getNewIndices` returns `(1, 1)` only. -/
theorem getNewIndices_differs_from_spec_on_overflow :
    specNewIndices 65536 ∅ [1] [1, 65537] false = [(1, 1), (1, 65537)] ∧
    ((SparseDistmatIndices.new 65536).getNewIndices [1] [1, 65537] false).1 = [(1, 1)] ∧
    ((SparseDistmatIndices.new 65536).getNewIndices [1] [1, 65537] false).1 ≠
      specNewIndices (SparseDistmatIndices.new 65536).num_rows_
        (SparseDistmatIndices.new 65536).existing_indices_ [1] [1, 65537] false := by
  decide

/-- C1, amended: for every instance state and every `iList`, `jList` and
`symmetric` such that the key `i + (j-1)*num_rows` of every canonicalised pair of
the product is a value an `int` can hold, `getNewIndices` returns exactly the
canonicalised pairs of the Cartesian product (`i` outer, `j` inner, input order;
`(i, j)` replaced by `(j, i)` when `symmetric` is set and `j > i`) whose key
`i + (j-1)*num_rows` is neither in the seen set before the call nor the key of an
earlier pair of the product, in that order. -/
theorem getNewIndices_eq_spec (self : SparseDistmatIndices) (iList jList : List Int)
    (symmetric : Bool)
    (hfit : ∀ p ∈ (cartesian iList jList).map (specCanon symmetric),
      fitsInt (mathKey self.num_rows_ p)) :
    (self.getNewIndices iList jList symmetric).1 =
      specNewIndices self.num_rows_ self.existing_indices_ iList jList symmetric := by
  have hkey : ∀ p ∈ candidates symmetric iList jList,
      rowKey self.num_rows_ p = mathKey self.num_rows_ p := by
    intro p hp
    rw [candidates_eq] at hp
    exact rowKey_eq_mathKey_of_fits (hfit p hp)
  have h := keptRows_eq_filter self.num_rows_ self.existing_indices_ []
    (candidates symmetric iList jList)
  simp only [keysOf, List.map_nil, List.toFinset_nil, Finset.union_empty, List.length_nil,
    List.nil_append] at h
  rw [getNewIndices_eq, h]
  simp only [specNewIndices, List.enum, ← candidates_eq]
  congr 1
  apply List.filter_congr
  intro kp hkp
  have hmap : ((candidates symmetric iList jList).take kp.1).map (rowKey self.num_rows_) =
      ((candidates symmetric iList jList).take kp.1).map (mathKey self.num_rows_) :=
    List.map_congr_left fun q hq => hkey q (List.mem_of_mem_take hq)
  simp only [hkey kp.2 (List.snd_mem_of_mem_enumFrom hkp), hmap]

/-- C1, amended, at a concrete call: `num_rows = 3`, `iList = [1, 2]`,
`jList = [1, 2]`, `symmetric` set, on the instance left by
`getNewIndices([2], [1], false)`; the call returns `(1, 1)` and `(2, 2)`. -/
theorem getNewIndices_eq_spec_witness :
    (∀ p ∈ (cartesian [1, 2] [1, 2]).map (specCanon true),
      fitsInt (mathKey
        ((SparseDistmatIndices.new 3).getNewIndices [2] [1] false).2.num_rows_ p)) ∧
    (((SparseDistmatIndices.new 3).getNewIndices [2] [1] false).2.getNewIndices
        [1, 2] [1, 2] true).1 =
      specNewIndices ((SparseDistmatIndices.new 3).getNewIndices [2] [1] false).2.num_rows_
        ((SparseDistmatIndices.new 3).getNewIndices [2] [1] false).2.existing_indices_
        [1, 2] [1, 2] true ∧
    (((SparseDistmatIndices.new 3).getNewIndices [2] [1] false).2.getNewIndices
        [1, 2] [1, 2] true).1 = [(1, 1), (2, 2)] :=
  ⟨by decide,
   getNewIndices_eq_spec ((SparseDistmatIndices.new 3).getNewIndices [2] [1] false).2
     [1, 2] [1, 2] true (by decide),
   by decide⟩

/-- What a sequence of calls returns and records, from any starting instance. -/
theorem runCalls_invariant (self : SparseDistmatIndices) (calls : List Call) :
    ((runCalls self calls).1.map (rowKey self.num_rows_)).Nodup ∧
    (∀ p ∈ (runCalls self calls).1, rowKey self.num_rows_ p ∉ self.existing_indices_) ∧
    (runCalls self calls).2.num_rows_ = self.num_rows_ := by
  induction calls generalizing self with
  | nil => simp [runCalls]
  | cons c cs ih =>
    obtain ⟨ih1, ih2, ih3⟩ := ih (self.getNewIndices c.i c.j c.symmetric).2
    simp only [runCalls]
    rw [getNewIndices_eq] at ih1 ih2 ih3 ⊢
    simp only at ih1 ih2 ih3 ⊢
    refine ⟨?_, ?_, ih3⟩
    · rw [List.map_append, List.nodup_append]
      refine ⟨keptRows_keys_nodup _ _ _, ih1, ?_⟩
      intro k hk1 hk2
      obtain ⟨q, hq, rfl⟩ := List.mem_map.1 hk2
      apply ih2 q hq
      rw [keptSeen_eq_union_kept]
      exact Finset.mem_union_right _ (by simpa [keysOf] using hk1)
    · intro p hp
      rcases List.mem_append.1 hp with hp | hp
      · exact keptRows_key_not_mem _ _ _ p hp
      · intro hk
        apply ih2 p hp
        rw [keptSeen_eq_union]
        exact Finset.mem_union_left _ hk

/-- C2: over any finite sequence of `getNewIndices` calls on one instance,
starting from a freshly constructed one, the rows returned have pairwise distinct
keys `i + (j-1)*num_rows` (as `int` values, hence also as integers), and no
(row, column) pair is returned twice, within one call or across calls. -/
theorem runCalls_keys_pairwise_distinct (num_rows : Int) (calls : List Call) :
    ((runCalls (SparseDistmatIndices.new num_rows) calls).1).Pairwise
      (fun p q => specKey num_rows p ≠ specKey num_rows q ∧
        mathKey num_rows p ≠ mathKey num_rows q ∧ p ≠ q) := by
  have h := (runCalls_invariant (SparseDistmatIndices.new num_rows) calls).1
  rw [List.Nodup, List.pairwise_map] at h
  refine h.imp ?_
  intro p q hpq
  simp only [SparseDistmatIndices.new, rowKey_eq_specKey] at hpq
  refine ⟨hpq, ?_, ?_⟩
  · intro hm
    exact hpq (by simp only [specKey, hm])
  · intro hm
    exact hpq (by rw [hm])

/-- C3: calling `getNewIndices` twice in a row with the same inputs gives an
empty result on the second call, whatever the instance state. -/
theorem getNewIndices_twice_empty (self : SparseDistmatIndices) (iList jList : List Int)
    (symmetric : Bool) :
    ((self.getNewIndices iList jList symmetric).2.getNewIndices iList jList symmetric).1 = [] := by
  rw [getNewIndices_eq, getNewIndices_eq]
  apply keptRows_eq_nil
  intro p hp
  rw [keptSeen_eq_union]
  exact Finset.mem_union_right _ (by simpa [keysOf] using ⟨p.1, p.2, hp, rfl⟩)

/-- C4 as stated fails: with `num_rows = 3`, `iList = [1, 4]` and `jList = [2, 1]`
the pair `(4, 1)` of the product has the key `4` of the earlier pair `(1, 2)` and
is not returned by the first call on a fresh instance. -/
theorem first_call_omits_colliding_pair :
    ¬ (∀ p ∈ (cartesian [1, 4] [2, 1]).map (specCanon false),
        p ∈ ((SparseDistmatIndices.new 3).getNewIndices [1, 4] [2, 1] false).1) := by
  decide

/-- From the empty set, the traversal keeps every candidate exactly when no two
different candidates have the same `int` key. -/
theorem keptRows_all_iff (n : Int) (cs : List (Int × Int)) :
    (∀ p ∈ cs, p ∈ keptRows n ∅ cs) ↔
      (∀ p ∈ cs, ∀ q ∈ cs, rowKey n p = rowKey n q → p = q) := by
  constructor
  · intro hall p hp q hq hk
    exact List.inj_on_of_nodup_map (keptRows_keys_nodup n ∅ _) (hall p hp) (hall q hq) hk
  · intro hinj p hp
    obtain ⟨q, hq, hqk⟩ := keptRows_key_covered n ∅ _ p hp (Finset.not_mem_empty _)
    have hqc : q ∈ cs := (keptRows_sublist _ _ _).subset hq
    rw [← hinj q hqc p hp hqk]
    exact hq

/-- C4, amended: for a freshly constructed instance (any `num_rows`) and every
`iList`, `jList` and `symmetric` such that the key `i + (j-1)*num_rows` of every
canonicalised pair of the product is a value an `int` can hold, the first call
returns every canonicalised pair of the Cartesian product if and only if no two
different canonicalised pairs of the product have the same key
`i + (j-1)*num_rows`. -/
theorem first_call_all_pairs_iff (num_rows : Int) (iList jList : List Int) (symmetric : Bool)
    (hfit : ∀ p ∈ (cartesian iList jList).map (specCanon symmetric),
      fitsInt (mathKey num_rows p)) :
    (∀ p ∈ (cartesian iList jList).map (specCanon symmetric),
        p ∈ ((SparseDistmatIndices.new num_rows).getNewIndices iList jList symmetric).1) ↔
      (∀ p ∈ (cartesian iList jList).map (specCanon symmetric),
        ∀ q ∈ (cartesian iList jList).map (specCanon symmetric),
          mathKey num_rows p = mathKey num_rows q → p = q) := by
  have hkey : ∀ p ∈ (cartesian iList jList).map (specCanon symmetric),
      rowKey num_rows p = mathKey num_rows p :=
    fun p hp => rowKey_eq_mathKey_of_fits (hfit p hp)
  rw [getNewIndices_eq, ← candidates_eq] at *
  simp only [SparseDistmatIndices.new]
  rw [keptRows_all_iff]
  constructor
  · intro h p hp q hq hk
    exact h p hp q hq (by rw [hkey p hp, hkey q hq]; exact hk)
  · intro h p hp q hq hk
    exact h p hp q hq (by rw [← hkey p hp, ← hkey q hq]; exact hk)

/-- C4, amended, at two concrete calls with `num_rows = 3`: for `iList = [1, 2]`,
`jList = [1, 2]`, `symmetric` set, the keys are distinct and every pair is
returned; for `iList = [1, 4]`, `jList = [2, 1]`, `symmetric` unset, the pairs
`(1, 2)` and `(4, 1)` share the key `4` and not every pair is returned. -/
theorem first_call_all_pairs_iff_witness :
    ((∀ p ∈ (cartesian [1, 2] [1, 2]).map (specCanon true), fitsInt (mathKey 3 p)) ∧
      ((∀ p ∈ (cartesian [1, 2] [1, 2]).map (specCanon true),
          p ∈ ((SparseDistmatIndices.new 3).getNewIndices [1, 2] [1, 2] true).1) ↔
        (∀ p ∈ (cartesian [1, 2] [1, 2]).map (specCanon true),
          ∀ q ∈ (cartesian [1, 2] [1, 2]).map (specCanon true),
            mathKey 3 p = mathKey 3 q → p = q)) ∧
      (∀ p ∈ (cartesian [1, 2] [1, 2]).map (specCanon true),
          p ∈ ((SparseDistmatIndices.new 3).getNewIndices [1, 2] [1, 2] true).1)) ∧
    ((∀ p ∈ (cartesian [1, 4] [2, 1]).map (specCanon false), fitsInt (mathKey 3 p)) ∧
      ((∀ p ∈ (cartesian [1, 4] [2, 1]).map (specCanon false),
          p ∈ ((SparseDistmatIndices.new 3).getNewIndices [1, 4] [2, 1] false).1) ↔
        (∀ p ∈ (cartesian [1, 4] [2, 1]).map (specCanon false),
          ∀ q ∈ (cartesian [1, 4] [2, 1]).map (specCanon false),
            mathKey 3 p = mathKey 3 q → p = q)) ∧
      mathKey 3 (1, 2) = mathKey 3 (4, 1)) :=
  ⟨⟨by decide, first_call_all_pairs_iff 3 [1, 2] [1, 2] true (by decide), by decide⟩,
   ⟨by decide, first_call_all_pairs_iff 3 [1, 4] [2, 1] false (by decide), by decide⟩⟩

theorem canonPair_comm (a b : Int) : canonPair true b a = canonPair true a b := by
  unfold canonPair
  rcases lt_trichotomy a b with h | h | h
  · have h2 : ¬ a > b := by omega
    simp [h, h2]
  · subst h; simp
  · have h2 : ¬ b > a := by omega
    simp [h, h2]

/-- C5: symmetric-mode deduplication collapses `(a, b)` and `(b, a)` to one key:
for every `num_rows` and all `a`, `b`, on a fresh instance
`getNewIndices([a], [b], symmetric=true)` returns a non-empty result and the
following `getNewIndices([b], [a], symmetric=true)` returns an empty result. -/
theorem symmetric_mirror_collapses (num_rows a b : Int) :
    ((SparseDistmatIndices.new num_rows).getNewIndices [a] [b] true).1 ≠ [] ∧
    (((SparseDistmatIndices.new num_rows).getNewIndices [a] [b] true).2.getNewIndices
      [b] [a] true).1 = [] := by
  rw [getNewIndices_eq, getNewIndices_eq]
  simp only [SparseDistmatIndices.new, candidates, List.flatMap_cons, List.flatMap_nil,
    List.map_cons, List.map_nil, List.append_nil, canonPair_comm a b]
  simp [keptRows, keptSeen]

/-- C6: on an instance constructed with `num_rows = 3`,
`getNewIndices([1,2], [1], false)` returns `[(1,1), (2,1)]`; a second call with
`([2], [1], false)` returns the empty list; a third call with `([1], [2], true)`
returns the empty list. -/
theorem scenario_three_calls :
    ((SparseDistmatIndices.new 3).getNewIndices [1, 2] [1] false).1 = [(1, 1), (2, 1)] ∧
    ((((SparseDistmatIndices.new 3).getNewIndices [1, 2] [1] false).2).getNewIndices
      [2] [1] false).1 = [] ∧
    ((((((SparseDistmatIndices.new 3).getNewIndices [1, 2] [1] false).2).getNewIndices
      [2] [1] false).2).getNewIndices [1] [2] true).1 = [] ∧
    canonPair true 1 2 = (2, 1) ∧
    linearKey 3 2 1 ∈ ((((SparseDistmatIndices.new 3).getNewIndices [1, 2] [1] false).2).getNewIndices
      [2] [1] false).2.existing_indices_ := by
  decide

theorem mem_candidates {symmetric : Bool} {i j : List Int} {p : Int × Int}
    (h : p ∈ candidates symmetric i j) : ∃ a ∈ i, ∃ b ∈ j, p = canonPair symmetric a b := by
  simp only [candidates, List.mem_flatMap, List.mem_map] at h
  obtain ⟨a, ha, b, hb, rfl⟩ := h
  exact ⟨a, ha, b, hb, rfl⟩

/-- C9: the rows `getNewIndices` returns are the canonicalised pairs: with
`symmetric` set every returned row `(r, c)` has `r ≥ c` and is
`(max(i,j), min(i,j))` for some `i` in `iList` and `j` in `jList`; with
`symmetric` unset every returned row is `(i, j)` for some `i` in `iList` and `j`
in `jList`. -/
theorem returned_rows_canonical (self : SparseDistmatIndices) (iList jList : List Int)
    (symmetric : Bool) :
    ∀ row ∈ (self.getNewIndices iList jList symmetric).1,
      (symmetric = true →
        row.1 ≥ row.2 ∧ ∃ a ∈ iList, ∃ b ∈ jList, row = (max a b, min a b)) ∧
      (symmetric = false → ∃ a ∈ iList, ∃ b ∈ jList, row = (a, b)) := by
  intro row hrow
  rw [getNewIndices_eq] at hrow
  obtain ⟨a, ha, b, hb, rfl⟩ := mem_candidates ((keptRows_sublist _ _ _).subset hrow)
  constructor
  · rintro rfl
    by_cases h : b > a
    · have e : canonPair true a b = (max a b, min a b) := by
        simp [canonPair, h, max_eq_right h.le, min_eq_left h.le]
      refine ⟨?_, a, ha, b, hb, e⟩
      rw [e]; exact le_trans (min_le_left a b) (le_max_left a b)
    · have h2 : b ≤ a := by omega
      have e : canonPair true a b = (max a b, min a b) := by
        simp [canonPair, h, max_eq_left h2, min_eq_right h2]
      refine ⟨?_, a, ha, b, hb, e⟩
      rw [e]; exact le_trans (min_le_left a b) (le_max_left a b)
  · rintro rfl
    exact ⟨a, ha, b, hb, by simp [canonPair]⟩

/-- C9 at a concrete call: from a fresh instance with `num_rows = 3`,
`getNewIndices([1], [2], true)` returns the row `(2, 1)`. -/
theorem returned_rows_canonical_witness :
    (2, 1) ∈ ((SparseDistmatIndices.new 3).getNewIndices [1] [2] true).1 ∧
    ((true = true →
        (2 : Int) ≥ 1 ∧ ∃ a ∈ [(1 : Int)], ∃ b ∈ [(2 : Int)], ((2, 1) : Int × Int) = (max a b, min a b)) ∧
      (true = false → ∃ a ∈ [(1 : Int)], ∃ b ∈ [(2 : Int)], ((2, 1) : Int × Int) = (a, b))) :=
  ⟨by decide,
   returned_rows_canonical (SparseDistmatIndices.new 3) [1] [2] true (2, 1) (by decide)⟩

/-- C10: a `getNewIndices` call leaves `num_rows` unchanged, and the seen-key set
after the call is the seen-key set before the call united with the keys of
exactly the rows the call returned; the set only grows, and a call that returns
an empty result leaves the instance state unchanged. -/
theorem getNewIndices_frame (self : SparseDistmatIndices) (iList jList : List Int)
    (symmetric : Bool) :
    (self.getNewIndices iList jList symmetric).2.num_rows_ = self.num_rows_ ∧
    (self.getNewIndices iList jList symmetric).2.existing_indices_ =
      self.existing_indices_ ∪
        ((self.getNewIndices iList jList symmetric).1.map (specKey self.num_rows_)).toFinset ∧
    self.existing_indices_ ⊆ (self.getNewIndices iList jList symmetric).2.existing_indices_ ∧
    ((self.getNewIndices iList jList symmetric).1 = [] →
      (self.getNewIndices iList jList symmetric).2 = self) := by
  rw [getNewIndices_eq]
  simp only [specKey_eq_rowKey]
  refine ⟨trivial, keptSeen_eq_union_kept _ _ _, ?_, ?_⟩
  · rw [keptSeen_eq_union]
    exact Finset.subset_union_left
  · intro h
    rw [keptSeen_eq_union_kept, h]
    simp [keysOf]

theorem candidates_append (symmetric : Bool) (i1 i2 j : List Int) :
    candidates symmetric (i1 ++ i2) j = candidates symmetric i1 j ++ candidates symmetric i2 j := by
  simp [candidates, List.flatMap_append]

/-- C14: `getNewIndices` distributes over concatenation of the row list: one call
with `i1 ++ i2` returns the result of the call with `i1` followed by the result
of a subsequent call with `i2` (same `jList` and flag), and both ways end in the
same instance state. -/
theorem getNewIndices_append (self : SparseDistmatIndices) (i1 i2 jList : List Int)
    (symmetric : Bool) :
    (self.getNewIndices (i1 ++ i2) jList symmetric).1 =
        (self.getNewIndices i1 jList symmetric).1 ++
          ((self.getNewIndices i1 jList symmetric).2.getNewIndices i2 jList symmetric).1 ∧
    (self.getNewIndices (i1 ++ i2) jList symmetric).2 =
        ((self.getNewIndices i1 jList symmetric).2.getNewIndices i2 jList symmetric).2 := by
  simp only [getNewIndices_eq, candidates_append, keptRows_append, keptSeen_append, and_self]

/-! ## Proofs: keys of in-range rows -/

/-- Over the integers, `i + (j - 1) * num_rows` determines `(i, j)` when the row
index lies in `[1..num_rows]`. -/
theorem mathKey_inj (n : Int) (p q : Int × Int) (hp1 : 1 ≤ p.1) (hp2 : p.1 ≤ n)
    (hq1 : 1 ≤ q.1) (hq2 : q.1 ≤ n) (h : mathKey n p = mathKey n q) : p = q := by
  unfold mathKey at h
  have hn : 0 ≤ n := by omega
  have hd : p.1 - q.1 = (q.2 - p.2) * n := by
    have e : (q.2 - p.2) * n = (q.2 - 1) * n - (p.2 - 1) * n := by ring
    rw [e]; omega
  have h2 : q.2 = p.2 := by
    rcases lt_trichotomy (q.2 - p.2) 0 with hneg | hzero | hpos
    · have : (q.2 - p.2) * n ≤ (-1) * n :=
        Int.mul_le_mul_of_nonneg_right (by omega) hn
      omega
    · omega
    · have : 1 * n ≤ (q.2 - p.2) * n :=
        Int.mul_le_mul_of_nonneg_right (by omega) hn
      omega
  have h1 : p.1 = q.1 := by
    rw [h2] at hd
    simp at hd
    omega
  exact Prod.ext h1 h2.symm

theorem rowKey_eq_mathKey_of_inRange {n : Int} {p : Int × Int} (hp : inRangeRow n p) :
    rowKey n p = mathKey n p :=
  linearKey_eq_mathKey_of_inRange n p.1 p.2 hp.2.2.1 hp.2.2.2

theorem rowKey_inj_of_inRange {n : Int} {p q : Int × Int} (hp : inRangeRow n p)
    (hq : inRangeRow n q) (h : rowKey n p = rowKey n q) : p = q := by
  rw [rowKey_eq_mathKey_of_inRange hp, rowKey_eq_mathKey_of_inRange hq] at h
  exact mathKey_inj n p q hp.1 hp.2.1 hq.1 hq.2.1 h

/-- Every row a sequence of calls returns is a candidate of one of the calls. -/
theorem runCalls_rows_candidates (self : SparseDistmatIndices) (calls : List Call) :
    ∀ q ∈ (runCalls self calls).1, ∃ c ∈ calls, q ∈ candidates c.symmetric c.i c.j := by
  induction calls generalizing self with
  | nil => simp [runCalls]
  | cons c cs ih =>
    intro q hq
    simp only [runCalls, List.mem_append] at hq
    rcases hq with hq | hq
    · rw [getNewIndices_eq] at hq
      exact ⟨c, List.mem_cons_self _ _, (keptRows_sublist _ _ _).subset hq⟩
    · obtain ⟨c', hc', hq'⟩ := ih _ q hq
      exact ⟨c', List.mem_cons_of_mem _ hc', hq'⟩

/-- The key of every candidate of every call is recorded before the calls or
carried by a row the calls return. -/
theorem runCalls_key_covered (self : SparseDistmatIndices) (calls : List Call) :
    ∀ c ∈ calls, ∀ p ∈ candidates c.symmetric c.i c.j,
      rowKey self.num_rows_ p ∈ self.existing_indices_ ∨
        ∃ q ∈ (runCalls self calls).1, rowKey self.num_rows_ q = rowKey self.num_rows_ p := by
  induction calls generalizing self with
  | nil => simp
  | cons c0 cs ih =>
    intro c hc p hp
    by_cases hseen : rowKey self.num_rows_ p ∈ self.existing_indices_
    · exact Or.inl hseen
    · right
      simp only [runCalls]
      rcases List.mem_cons.1 hc with rfl | hc
      · obtain ⟨q, hq, hqk⟩ := keptRows_key_covered self.num_rows_ self.existing_indices_ _ p hp hseen
        refine ⟨q, List.mem_append_left _ ?_, hqk⟩
        rw [getNewIndices_eq]
        exact hq
      · have h := ih (self.getNewIndices c0.i c0.j c0.symmetric).2 c hc p hp
        rw [getNewIndices_eq] at h ⊢
        simp only at h ⊢
        rcases h with h | ⟨q, hq, hqk⟩
        · rw [keptSeen_eq_union_kept, Finset.mem_union] at h
          rcases h with h | h
          · exact absurd h hseen
          · simp only [keysOf, List.mem_toFinset, List.mem_map] at h
            obtain ⟨q, hq, hqk⟩ := h
            exact ⟨q, List.mem_append_left _ hq, hqk⟩
        · exact ⟨q, List.mem_append_right _ hq, hqk⟩

/-- With pairwise distinct keys among the candidates that are new to `seen`, the
traversal keeps exactly the candidates whose key is not in `seen`. -/
theorem keptRows_eq_filter_of_nodup (n : Int) (seen : Finset Int) (cs : List (Int × Int))
    (h : ((cs.filter fun p => decide (rowKey n p ∉ seen)).map (rowKey n)).Nodup) :
    keptRows n seen cs = cs.filter fun p => decide (rowKey n p ∉ seen) := by
  induction cs generalizing seen with
  | nil => simp [keptRows]
  | cons p ps ih =>
    by_cases hp : rowKey n p ∈ seen
    · have hf : (decide (rowKey n p ∉ seen)) = false := by simpa using hp
      rw [List.filter_cons, hf] at h ⊢
      simp only [Bool.false_eq_true, if_false] at h ⊢
      simp only [keptRows, hp, not_true_eq_false, if_false]
      exact ih seen h
    · have hf : (decide (rowKey n p ∉ seen)) = true := by simpa using hp
      rw [List.filter_cons, hf] at h ⊢
      simp only [if_true, List.map_cons, List.nodup_cons] at h ⊢
      simp only [keptRows, hp, not_false_eq_true, if_true]
      have hcongr : (ps.filter fun q => decide (rowKey n q ∉ insert (rowKey n p) seen)) =
          ps.filter fun q => decide (rowKey n q ∉ seen) := by
        apply List.filter_congr
        intro q hq
        by_cases hqs : rowKey n q ∈ seen
        · simp [hqs]
        · have hne : rowKey n q ≠ rowKey n p := by
            intro e
            apply h.1
            rw [← e]
            exact List.mem_map.2 ⟨q, List.mem_filter.2 ⟨hq, by simpa using hqs⟩, rfl⟩
          simp [hqs, hne]
      rw [ih (insert (rowKey n p) seen) (by rw [hcongr]; exact h.2), hcongr]

theorem keptRows_eq_self (n : Int) (seen : Finset Int) (cs : List (Int × Int))
    (hnodup : (cs.map (rowKey n)).Nodup) (hnew : ∀ p ∈ cs, rowKey n p ∉ seen) :
    keptRows n seen cs = cs := by
  have hf : (cs.filter fun p => decide (rowKey n p ∉ seen)) = cs := by
    apply List.filter_eq_self.2
    intro p hp
    simpa using hnew p hp
  rw [keptRows_eq_filter_of_nodup n seen cs (by rw [hf]; exact hnodup), hf]

/-! ## The claims on in-range rows -/

theorem cartesian_eq_product (iList jList : List Int) :
    cartesian iList jList = List.product iList jList := rfl

theorem candidates_false (i j : List Int) : candidates false i j = cartesian i j := by
  rw [candidates_eq]
  have h : specCanon false = id := by
    funext p
    simp [specCanon]
  rw [h, List.map_id]

/-- C12 as stated fails: with `num_rows = 65536`, `iList = [1]` and
`jList = [1, 65537]` (duplicate-free, row index in range) the `int` key of
`(1, 65537)` is the key `1` of `(1, 1)`, and the call on a fresh instance returns
one row instead of the two of the product. -/
theorem whole_product_fails_on_overflow :
    (1 : Int) ≤ 65536 ∧ [(1 : Int)].Nodup ∧ [(1 : Int), 65537].Nodup ∧
    (∀ i ∈ [(1 : Int)], 1 ≤ i ∧ i ≤ 65536) ∧
    ((SparseDistmatIndices.new 65536).getNewIndices [1] [1, 65537] false).1 ≠
      cartesian [1] [1, 65537] ∧
    ((SparseDistmatIndices.new 65536).getNewIndices [1] [1, 65537] false).1.length ≠
      [(1 : Int)].length * [(1 : Int), 65537].length := by
  decide

/-- C12, amended: for `num_rows ≥ 1` and a fresh instance, if `iList` and `jList`
are each duplicate-free, every element of `iList` lies in `[1..num_rows]` and
every key `i + (j-1)*num_rows` of the product is a value an `int` can hold, then
`getNewIndices(iList, jList, symmetric=false)` returns the whole Cartesian
product, `i` outer and `j` inner in input order, with `|iList| * |jList|` rows. -/
theorem getNewIndices_whole_product (num_rows : Int) (iList jList : List Int)
    (_hn : 1 ≤ num_rows) (hi : iList.Nodup) (hj : jList.Nodup)
    (hrow : ∀ i ∈ iList, 1 ≤ i ∧ i ≤ num_rows)
    (hfit : ∀ i ∈ iList, ∀ j ∈ jList, fitsInt (mathKey num_rows (i, j))) :
    ((SparseDistmatIndices.new num_rows).getNewIndices iList jList false).1 =
      cartesian iList jList ∧
    ((SparseDistmatIndices.new num_rows).getNewIndices iList jList false).1.length =
      iList.length * jList.length := by
  have hin : ∀ p ∈ cartesian iList jList, inRangeRow num_rows p := by
    intro p hp
    rw [cartesian_eq_product] at hp
    obtain ⟨a, b⟩ := p
    rw [List.pair_mem_product] at hp
    exact ⟨(hrow a hp.1).1, (hrow a hp.1).2, hfit a hp.1 b hp.2⟩
  have hnodup : ((cartesian iList jList).map (rowKey num_rows)).Nodup := by
    apply List.Nodup.map_on
    · intro p hp q hq hk
      exact rowKey_inj_of_inRange (hin p hp) (hin q hq) hk
    · rw [cartesian_eq_product]
      exact hi.product hj
  have hres : ((SparseDistmatIndices.new num_rows).getNewIndices iList jList false).1 =
      cartesian iList jList := by
    rw [getNewIndices_eq, candidates_false]
    exact keptRows_eq_self num_rows ∅ _ hnodup (fun _ _ => Finset.not_mem_empty _)
  refine ⟨hres, ?_⟩
  rw [hres, cartesian_eq_product]
  exact List.length_product iList jList

/-- C12, amended, at a concrete call: `num_rows = 3`, `iList = [1, 2]`,
`jList = [1, 2]`. -/
theorem getNewIndices_whole_product_witness :
    ((SparseDistmatIndices.new 3).getNewIndices [1, 2] [1, 2] false).1 =
      cartesian [1, 2] [1, 2] ∧
    ((SparseDistmatIndices.new 3).getNewIndices [1, 2] [1, 2] false).1.length =
      [(1 : Int), 2].length * [(1 : Int), 2].length :=
  getNewIndices_whole_product 3 [1, 2] [1, 2] (by decide) (by decide) (by decide)
    (by decide) (by decide)

/-- C13 as stated fails for the key the code computes: with `num_rows = 65536` the
pairs `(1, 1)` and `(1, 65537)` have row indices in `[1..num_rows]` and are
different, yet line 32 gives both the `int` key `1`, and `getNewIndices`
suppresses `(1, 65537)` because of `(1, 1)`. -/
theorem key_collision_on_overflow :
    ((1 : Int) ≤ 65536 ∧ (1 : Int) ≤ 1 ∧ (1 : Int) ≤ 65536) ∧
    linearKey 65536 1 1 = linearKey 65536 1 65537 ∧
    ((1, 1) : Int × Int) ≠ (1, 65537) ∧
    (1, 65537) ∈ candidates false [1] [1, 65537] ∧
    (1, 65537) ∉ ((SparseDistmatIndices.new 65536).getNewIndices [1] [1, 65537] false).1 := by
  decide

/-- C13, amended: the linearisation `i + (j-1)*num_rows` is injective over the
integers on rows with `1 ≤ i ≤ num_rows`; the `int` key the code computes is
injective on such rows whose key is a value an `int` can hold; and over any
sequence of calls on a fresh instance all of whose candidate pairs are such
rows, every candidate pair of every call is among the rows returned, so none is
suppressed because of a different pair. -/
theorem key_injective_in_range (num_rows : Int) :
    (∀ p q : Int × Int, 1 ≤ p.1 → p.1 ≤ num_rows → 1 ≤ q.1 → q.1 ≤ num_rows →
      mathKey num_rows p = mathKey num_rows q → p = q) ∧
    (∀ p q : Int × Int, inRangeRow num_rows p → inRangeRow num_rows q →
      linearKey num_rows p.1 p.2 = linearKey num_rows q.1 q.2 → p = q) ∧
    (∀ calls : List Call,
      (∀ c ∈ calls, ∀ p ∈ candidates c.symmetric c.i c.j, inRangeRow num_rows p) →
      ∀ c ∈ calls, ∀ p ∈ candidates c.symmetric c.i c.j,
        p ∈ (runCalls (SparseDistmatIndices.new num_rows) calls).1) := by
  refine ⟨fun p q hp1 hp2 hq1 hq2 h => mathKey_inj num_rows p q hp1 hp2 hq1 hq2 h,
    fun p q hp hq h => rowKey_inj_of_inRange hp hq h, ?_⟩
  intro calls hall c hc p hp
  rcases runCalls_key_covered (SparseDistmatIndices.new num_rows) calls c hc p hp with h | h
  · exact absurd h (Finset.not_mem_empty _)
  · obtain ⟨q, hq, hqk⟩ := h
    obtain ⟨c', hc', hq'⟩ := runCalls_rows_candidates _ calls q hq
    have e : q = p := rowKey_inj_of_inRange (hall c' hc' q hq') (hall c hc p hp) hqk
    rw [← e]
    exact hq

/-- C13, amended, at concrete rows and calls: `num_rows = 3`, the rows `(2, 1)`
and `(2, 2)`, and the calls `([1, 2], [1], false)` then `([1], [2], true)`. -/
theorem key_injective_in_range_witness :
    (inRangeRow 3 (2, 1) ∧ inRangeRow 3 (2, 2) ∧ linearKey 3 2 1 ≠ linearKey 3 2 2) ∧
    (∀ c ∈ [Call.mk [1, 2] [1] false, Call.mk [1] [2] true],
      ∀ p ∈ candidates c.symmetric c.i c.j,
        p ∈ (runCalls (SparseDistmatIndices.new 3)
          [Call.mk [1, 2] [1] false, Call.mk [1] [2] true]).1) :=
  ⟨⟨by decide, by decide, by decide⟩,
   (key_injective_in_range 3).2.2 [Call.mk [1, 2] [1] false, Call.mk [1] [2] true]
     (by decide)⟩

/-! ## Proofs: the lower triangle -/

theorem mem_lowerColumn (n c : Nat) (p : Int × Int) :
    p ∈ lowerColumn n c ↔ ∃ r : Nat, c ≤ r ∧ r < c + (n + 1 - c) ∧ p = ((r : Int), (c : Int)) := by
  simp only [lowerColumn, List.mem_map, List.mem_range'_1]
  constructor
  · rintro ⟨r, ⟨h1, h2⟩, rfl⟩
    exact ⟨r, h1, h2, rfl⟩
  · rintro ⟨r, h1, h2, rfl⟩
    exact ⟨r, ⟨h1, h2⟩, rfl⟩

theorem mem_lowerTriangleColumns (k n : Nat) (p : Int × Int) :
    p ∈ lowerTriangleColumns k n ↔
      ∃ r c : Nat, 1 ≤ c ∧ c ≤ k ∧ c ≤ r ∧ r < c + (n + 1 - c) ∧ p = ((r : Int), (c : Int)) := by
  simp only [lowerTriangleColumns, List.mem_flatMap, List.mem_range'_1, mem_lowerColumn]
  constructor
  · rintro ⟨c, ⟨h1, h2⟩, r, h3, h4, rfl⟩
    exact ⟨r, c, h1, by omega, h3, h4, rfl⟩
  · rintro ⟨r, c, h1, h2, h3, h4, rfl⟩
    exact ⟨c, ⟨h1, by omega⟩, r, h3, h4, rfl⟩

/-- A row on or below the diagonal of an `n × n` matrix is in range when `n * n`
is a value an `int` can hold. -/
theorem inRangeRow_of_lower (n r c : Nat) (hn : n * n ≤ 2147483647) (hc : 1 ≤ c) (hcr : c ≤ r)
    (hr : r ≤ n) : inRangeRow (n : Int) ((r : Int), (c : Int)) := by
  have h1 : ((c : Int) - 1) * (n : Int) ≤ ((n : Int) - 1) * (n : Int) :=
    Int.mul_le_mul_of_nonneg_right (by omega) (by omega)
  have h2 : 0 ≤ ((c : Int) - 1) * (n : Int) :=
    Int.mul_nonneg (by omega) (by omega)
  have h3 : ((n : Int) - 1) * (n : Int) = (n : Int) * (n : Int) - (n : Int) := by ring
  have h4 : (n : Int) * (n : Int) ≤ 2147483647 := by exact_mod_cast hn
  refine ⟨by simp only; omega, by simp only; omega, ?_, ?_⟩
  · simp only [mathKey]; omega
  · simp only [mathKey]; omega

theorem inRangeRow_of_mem_lowerTriangleColumns (k n : Nat) (hn : n * n ≤ 2147483647)
    (hk : k ≤ n) (p : Int × Int) (hp : p ∈ lowerTriangleColumns k n) :
    inRangeRow (n : Int) p := by
  obtain ⟨r, c, h1, h2, h3, h4, rfl⟩ := (mem_lowerTriangleColumns k n p).1 hp
  exact inRangeRow_of_lower n r c hn h1 h3 (by omega)

theorem lowerTriangleColumns_succ (k n : Nat) :
    lowerTriangleColumns (k + 1) n = lowerTriangleColumns k n ++ lowerColumn n (k + 1) := by
  simp only [lowerTriangleColumns, List.range'_concat, List.flatMap_append, List.flatMap_cons,
    List.flatMap_nil, List.append_nil, Nat.one_mul, Nat.add_comm 1 k]

theorem oneTo_succ (k : Nat) : oneTo (k + 1) = oneTo k ++ [((k + 1 : Nat) : Int)] := by
  simp only [oneTo, List.range'_concat, List.map_append, List.map_cons, List.map_nil,
    Nat.one_mul, Nat.add_comm 1 k]

theorem oneTo_split (k n : Nat) (hk : k ≤ n) :
    oneTo n = oneTo k ++ List.map (fun j : Nat => (j : Int)) (List.range' (k + 1) (n - k)) := by
  have h : List.range' 1 n = List.range' 1 k ++ List.range' (1 + k) (n - k) := by
    rw [List.range'_append_1]
    congr 1
    omega
  simp only [oneTo, h, List.map_append, Nat.add_comm 1 k]

theorem lowerColumn_nodup (n c : Nat) : (lowerColumn n c).Nodup := by
  unfold lowerColumn
  apply List.Nodup.map
  · intro a b h
    simp only [Prod.mk.injEq, Nat.cast_inj, and_true] at h
    exact h
  · exact List.nodup_range' c (n + 1 - c)

/-- The candidates of the outer iteration `i = k + 1` whose `j` runs over `[k+1..n]`
are the column `k + 1` of the lower triangle. -/
theorem map_canonPair_upper (n k : Nat) :
    (List.map (fun j : Nat => (j : Int)) (List.range' (k + 1) (n - k))).map
        (canonPair true ((k + 1 : Nat) : Int)) = lowerColumn n (k + 1) := by
  have e : n + 1 - (k + 1) = n - k := by omega
  rw [lowerColumn, e, List.map_map]
  apply List.map_congr_left
  intro j hj
  rw [List.mem_range'_1] at hj
  simp only [Function.comp, canonPair, Bool.true_and, decide_eq_true_eq]
  by_cases h : ((j : Int) > ((k + 1 : Nat) : Int))
  · rw [if_pos h]
  · have e2 : j = k + 1 := by omega
    subst e2
    rw [if_neg h]

/-- The outer iteration `i = k + 1` after the iterations `1, ..., k`: the rows kept
are the column `k + 1` of the lower triangle. -/
theorem keptRows_row (n k : Nat) (hn : n * n ≤ 2147483647) (hk : k < n) :
    keptRows (n : Int) (keysOf (n : Int) (lowerTriangleColumns k n))
      ((oneTo n).map (canonPair true ((k + 1 : Nat) : Int))) = lowerColumn n (k + 1) := by
  have hfirst : keptRows (n : Int) (keysOf (n : Int) (lowerTriangleColumns k n))
      ((oneTo k).map (canonPair true ((k + 1 : Nat) : Int))) = [] := by
    apply keptRows_eq_nil
    intro p hp
    simp only [oneTo, List.map_map, List.mem_map, List.mem_range'_1, Function.comp] at hp
    obtain ⟨j, ⟨hj1, hj2⟩, rfl⟩ := hp
    have hc : canonPair true ((k + 1 : Nat) : Int) (j : Int) = (((k + 1 : Nat) : Int), (j : Int)) := by
      have hnot : ¬ ((j : Int) > ((k + 1 : Nat) : Int)) := by omega
      simp only [canonPair, Bool.true_and, decide_eq_true_eq]
      rw [if_neg hnot]
    rw [hc]
    simp only [keysOf, List.mem_toFinset, List.mem_map]
    refine ⟨(((k + 1 : Nat) : Int), (j : Int)), ?_, rfl⟩
    rw [mem_lowerTriangleColumns]
    exact ⟨k + 1, j, hj1, by omega, by omega, by omega, rfl⟩
  have hseen : keptSeen (n : Int) (keysOf (n : Int) (lowerTriangleColumns k n))
      ((oneTo k).map (canonPair true ((k + 1 : Nat) : Int))) =
      keysOf (n : Int) (lowerTriangleColumns k n) := by
    rw [keptSeen_eq_union_kept, hfirst]
    simp [keysOf]
  rw [oneTo_split k n (le_of_lt hk), List.map_append, keptRows_append, hfirst, hseen,
    List.nil_append, map_canonPair_upper]
  have hin : ∀ p ∈ lowerColumn n (k + 1), inRangeRow (n : Int) p := by
    intro p hp
    obtain ⟨r, h1, h2, rfl⟩ := (mem_lowerColumn n (k + 1) p).1 hp
    exact inRangeRow_of_lower n r (k + 1) hn (by omega) h1 (by omega)
  apply keptRows_eq_self
  · apply List.Nodup.map_on
    · intro p hp q hq hpq
      exact rowKey_inj_of_inRange (hin p hp) (hin q hq) hpq
    · exact lowerColumn_nodup n (k + 1)
  · intro p hp hmem
    simp only [keysOf, List.mem_toFinset, List.mem_map] at hmem
    obtain ⟨q, hq, hqk⟩ := hmem
    have hqin := inRangeRow_of_mem_lowerTriangleColumns k n hn (le_of_lt hk) q hq
    have e : q = p := rowKey_inj_of_inRange hqin (hin p hp) hqk
    subst e
    obtain ⟨r, h1, h2, e1⟩ := (mem_lowerColumn n (k + 1) q).1 hp
    obtain ⟨r', c', h3, h4, h5, h6, e2⟩ := (mem_lowerTriangleColumns k n q).1 hq
    rw [e1] at e2
    simp only [Prod.mk.injEq, Nat.cast_inj] at e2
    omega

theorem candidates_singleton (i : Int) (j : List Int) :
    candidates true [i] j = j.map (canonPair true i) := by
  simp [candidates]

/-- After the outer iterations `1, ..., k` of the call on `[1..n] × [1..n]` the rows
kept are the first `k` columns of the lower triangle. -/
theorem keptRows_lowerTriangleColumns (n k : Nat) (hn : n * n ≤ 2147483647) (hk : k ≤ n) :
    keptRows (n : Int) ∅ (candidates true (oneTo k) (oneTo n)) = lowerTriangleColumns k n := by
  induction k with
  | zero => simp [oneTo, candidates, keptRows, lowerTriangleColumns]
  | succ k ih =>
    have ih2 := ih (by omega)
    have hseen : keptSeen (n : Int) ∅ (candidates true (oneTo k) (oneTo n)) =
        keysOf (n : Int) (lowerTriangleColumns k n) := by
      rw [keptSeen_eq_union_kept, ih2, Finset.empty_union]
    rw [oneTo_succ, candidates_append, keptRows_append, ih2, hseen, candidates_singleton,
      keptRows_row n k hn (by omega), lowerTriangleColumns_succ]

theorem length_lowerTriangleColumns (n k : Nat) (hk : k ≤ n) :
    2 * (lowerTriangleColumns k n).length + k * k = 2 * k * n + k := by
  induction k with
  | zero => simp [lowerTriangleColumns]
  | succ k ih =>
    have ih2 := ih (by omega)
    rw [lowerTriangleColumns_succ, List.length_append]
    have hl : (lowerColumn n (k + 1)).length = n - k := by
      simp only [lowerColumn, List.length_map, List.length_range']
      omega
    rw [hl]
    have e1 : (k + 1) * (k + 1) = k * k + 2 * k + 1 := by ring
    have e2 : 2 * (k + 1) * n = 2 * k * n + 2 * n := by ring
    rw [e1, e2]
    omega

theorem mem_lowerTriangleColumnMajor (n : Nat) (r c : Int) :
    (r, c) ∈ lowerTriangleColumnMajor n ↔ 1 ≤ c ∧ c ≤ r ∧ r ≤ (n : Int) := by
  rw [lowerTriangleColumnMajor, mem_lowerTriangleColumns]
  constructor
  · rintro ⟨r', c', h1, h2, h3, h4, e⟩
    simp only [Prod.mk.injEq] at e
    omega
  · rintro ⟨h1, h2, h3⟩
    refine ⟨r.toNat, c.toNat, by omega, by omega, by omega, by omega, ?_⟩
    simp only [Prod.mk.injEq]
    omega

/-- C11 as stated fails: with `n = 65537` the lower-triangle pairs `(65535, 1)` and
`(65536, 65536)` get the same `int` key `65535` (the key of the second leaves the
`int` range), so the call on `[1..n] × [1..n]` cannot return both. -/
theorem lower_triangle_fails_on_overflow :
    ¬ (∀ r c : Int, 1 ≤ c → c ≤ r → r ≤ 65537 →
        (r, c) ∈ ((SparseDistmatIndices.new ((65537 : Nat) : Int)).getNewIndices
          (oneTo 65537) (oneTo 65537) true).1) := by
  intro h
  have a := h 65535 1 (by decide) (by decide) (by decide)
  have b := h 65536 65536 (by decide) (by decide) (by decide)
  rw [getNewIndices_eq] at a b
  have hk : rowKey ((65537 : Nat) : Int) (65535, 1) = rowKey ((65537 : Nat) : Int) (65536, 65536) := by
    decide
  have e := List.inj_on_of_nodup_map (keptRows_keys_nodup _ _ _) a b hk
  exact absurd e (by decide)

/-- C11, amended: for a fresh instance with `num_rows = n ≥ 1` such that `n * n` is
a value an `int` can hold (`n ≤ 46340`), `getNewIndices([1..n], [1..n],
symmetric=true)` returns each lower-triangle pair `(r, c)` with
`1 ≤ c ≤ r ≤ n` exactly once and nothing else, `n*(n+1)/2` rows in total, in
column-major order `(1,1), (2,1), ..., (n,1), (2,2), (3,2), ..., (n,n)`. -/
theorem getNewIndices_lower_triangle (n : Nat) (_h1 : 1 ≤ n) (h2 : n * n ≤ 2147483647) :
    ((SparseDistmatIndices.new (n : Int)).getNewIndices (oneTo n) (oneTo n) true).1 =
      lowerTriangleColumnMajor n ∧
    ((SparseDistmatIndices.new (n : Int)).getNewIndices (oneTo n) (oneTo n) true).1.Nodup ∧
    (∀ r c : Int,
      (r, c) ∈ ((SparseDistmatIndices.new (n : Int)).getNewIndices (oneTo n) (oneTo n) true).1 ↔
        1 ≤ c ∧ c ≤ r ∧ r ≤ (n : Int)) ∧
    ((SparseDistmatIndices.new (n : Int)).getNewIndices (oneTo n) (oneTo n) true).1.length =
      n * (n + 1) / 2 := by
  have hres : ((SparseDistmatIndices.new (n : Int)).getNewIndices (oneTo n) (oneTo n) true).1 =
      lowerTriangleColumnMajor n := by
    rw [getNewIndices_eq]
    exact keptRows_lowerTriangleColumns n n h2 (le_refl n)
  have hnodup : (lowerTriangleColumnMajor n).Nodup := by
    rw [← hres, getNewIndices_eq]
    exact List.Nodup.of_map _ (keptRows_keys_nodup _ _ _)
  refine ⟨hres, ?_, ?_, ?_⟩
  · rw [hres]; exact hnodup
  · intro r c
    rw [hres]
    exact mem_lowerTriangleColumnMajor n r c
  · rw [hres, lowerTriangleColumnMajor]
    have hl := length_lowerTriangleColumns n n (le_refl n)
    have e1 : n * (n + 1) = n * n + n := by ring
    have e2 : 2 * n * n = 2 * (n * n) := by ring
    rw [e1]
    rw [e2] at hl
    omega

/-- C11, amended, at `n = 3`: the six rows of the lower triangle, column after
column. -/
theorem getNewIndices_lower_triangle_witness :
    (1 ≤ 3 ∧ 3 * 3 ≤ 2147483647) ∧
    ((SparseDistmatIndices.new ((3 : Nat) : Int)).getNewIndices (oneTo 3) (oneTo 3) true).1 =
      [(1, 1), (2, 1), (3, 1), (2, 2), (3, 2), (3, 3)] ∧
    ((SparseDistmatIndices.new ((3 : Nat) : Int)).getNewIndices (oneTo 3) (oneTo 3) true).1.length =
      3 * (3 + 1) / 2 :=
  ⟨by decide,
   (getNewIndices_lower_triangle 3 (by decide) (by decide)).1.trans (by decide),
   (getNewIndices_lower_triangle 3 (by decide) (by decide)).2.2.2⟩

end SparseDistmatIndices

/-! ## The claims on `distmat_loop` -/

/-- C7: `distmat_loop` builds the Distmat, the DistanceCalculator and the
DistmatFiller before it touches the series `X` and `Y`: if any of the three
factory `create` calls fails with `e`, leaving the state `s'`, then whatever
`fill`, `X` and `Y` are, the call ends with the error `e` in the state `s'` of
the failed `create`: `fill(X, Y)` was not invoked and the failure is what the
caller gets, not a normal return. -/
theorem distmat_loop_construction_failure {σ ε SEXP DM DC DF : Type}
    (F : Factories σ ε SEXP DM DC DF) (D DIST DIST_ARGS FILL_TYPE MAT_TYPE ENDPOINTS : SEXP)
    (s s' : σ) (e : ε)
    (h : F.createDistmat MAT_TYPE D s = (.error e, s') ∨
      (∃ dm s1, F.createDistmat MAT_TYPE D s = (.ok dm, s1) ∧
        F.createCalculator DIST DIST_ARGS s1 = (.error e, s')) ∨
      (∃ dm s1 dc s2, F.createDistmat MAT_TYPE D s = (.ok dm, s1) ∧
        F.createCalculator DIST DIST_ARGS s1 = (.ok dc, s2) ∧
        F.createFiller FILL_TYPE dm ENDPOINTS dc s2 = (.error e, s'))) :
    ∀ (fill : DF → SEXP → SEXP → Eff σ ε Unit) (X Y : SEXP),
      distmat_loop F fill D X Y DIST DIST_ARGS FILL_TYPE MAT_TYPE ENDPOINTS s = (.error e, s') := by
  intro fill X Y
  rcases h with h1 | ⟨dm, s1, h1, h2⟩ | ⟨dm, s1, dc, s2, h1, h2, h3⟩
  · simp only [distmat_loop, h1]
  · simp only [distmat_loop, h1, h2]
  · simp only [distmat_loop, h1, h2, h3]

/-- C7 at a concrete call: the matrix tag is known, the distance tag `7` is not;
the log holds the first `create` only, whatever `fill` is. -/
theorem distmat_loop_construction_failure_witness :
    (loggingFactories.createDistmat 0 0 [] = (.ok (), [1]) ∧
      loggingFactories.createCalculator 7 0 [1] = (.error 20, [1])) ∧
    (∀ (fill : Unit → Nat → Nat → Eff (List Nat) Nat Unit) (X Y : Nat),
      distmat_loop loggingFactories fill 0 X Y 7 0 0 0 0 [] = (.error 20, [1])) ∧
    distmat_loop loggingFactories loggingFill 0 5 6 0 0 0 0 0 [] =
      (.ok RNil.R_NilValue, [1, 2, 3, 4]) :=
  ⟨⟨rfl, rfl⟩,
   distmat_loop_construction_failure loggingFactories 0 7 0 0 0 0 [] [1] 20
     (Or.inr (Or.inl ⟨(), [1], rfl, rfl⟩)),
   rfl⟩

/-! ## The symmetric fill -/

theorem mem_lowerTriangle (n a b : Nat) :
    (a, b) ∈ lowerTriangle n ↔ 1 ≤ b ∧ b ≤ a ∧ a ≤ n := by
  simp only [lowerTriangle, List.mem_flatMap, List.mem_map, List.mem_range, Prod.mk.injEq]
  constructor
  · rintro ⟨i, hi, j, hj, rfl, rfl⟩
    omega
  · rintro ⟨h1, h2, h3⟩
    exact ⟨a - 1, by omega, b - 1, by omega, by omega, by omega⟩

theorem Distmat.set_ok {V : Type} {m m1 : Distmat V} {i j : Nat} {v : V}
    (h : m.set i j v = .ok m1) :
    (1 ≤ i ∧ i ≤ m.R ∧ 1 ≤ j ∧ j ≤ m.C) ∧ m1.R = m.R ∧ m1.C = m.C ∧
      m1.cells = fun a b => if a = i ∧ b = j then some v else m.cells a b := by
  unfold Distmat.set at h
  split at h
  · rename_i hb
    cases h
    exact ⟨hb, rfl, rfl, rfl⟩
  · cases h

/-- What a completed run of `fillCells` over the pairs `L` leaves behind: the
dimensions are kept; a cell visited directly or through its mirror is set, lies
inside the matrix together with its mirror, and equals its mirror; every other
cell is as before. -/
theorem fillCells_ok {S V : Type} (f : SymmetricFiller S V) (X Y : List S)
    (L : List (Nat × Nat)) :
    ∀ (m m' : Distmat V), fillCells f X Y L m = (.ok (), m') →
      m'.R = m.R ∧ m'.C = m.C ∧
      (∀ a b, ((a, b) ∈ L ∨ (b, a) ∈ L) →
        m'.cells a b = m'.cells b a ∧ (m'.cells a b).isSome = true ∧
        (1 ≤ a ∧ a ≤ m.R ∧ 1 ≤ b ∧ b ≤ m.C)) ∧
      (∀ a b, (a, b) ∉ L → (b, a) ∉ L → m'.cells a b = m.cells a b) := by
  induction L with
  | nil =>
    intro m m' h
    simp only [fillCells, Prod.mk.injEq, true_and] at h
    subst h
    simp
  | cons p rest ih =>
    obtain ⟨i, j⟩ := p
    intro m m' h
    simp only [fillCells] at h
    split at h
    · rename_i x y hx hy
      split at h
      · cases h
      · rename_i d hd
        split at h
        · cases h
        · rename_i m1 hm1
          split at h
          · cases h
          · rename_i m2 hm2
            obtain ⟨hb1, hR1, hC1, hc1⟩ := Distmat.set_ok hm1
            obtain ⟨hb2, hR2, hC2, hc2⟩ := Distmat.set_ok hm2
            obtain ⟨hR, hC, hcov, hrest⟩ := ih m2 m' h
            have hm2ij : m2.cells i j = some d := by
              rw [hc2, hc1]
              simp only [and_self, if_true]
              split <;> rfl
            have hm2ji : m2.cells j i = some d := by
              rw [hc2]; simp
            have hother : ∀ a b, ¬ (a = i ∧ b = j) → ¬ (a = j ∧ b = i) →
                m2.cells a b = m.cells a b := by
              intro a b h1 h2
              rw [hc2, hc1]
              simp only [h1, h2, if_false]
            refine ⟨by omega, by omega, ?_, ?_⟩
            · intro a b hab
              by_cases hr : (a, b) ∈ rest ∨ (b, a) ∈ rest
              · obtain ⟨e1, e2, e3⟩ := hcov a b hr
                exact ⟨e1, e2, by omega⟩
              · have hr1 : (a, b) ∉ rest := fun hh => hr (Or.inl hh)
                have hr2 : (b, a) ∉ rest := fun hh => hr (Or.inr hh)
                have e1 := hrest a b hr1 hr2
                have e2 := hrest b a hr2 hr1
                have hhead : (a = i ∧ b = j) ∨ (a = j ∧ b = i) := by
                  rcases hab with hab | hab
                  · rcases List.mem_cons.1 hab with hh | hh
                    · simp only [Prod.mk.injEq] at hh
                      exact Or.inl hh
                    · exact absurd hh hr1
                  · rcases List.mem_cons.1 hab with hh | hh
                    · simp only [Prod.mk.injEq] at hh
                      exact Or.inr ⟨hh.2, hh.1⟩
                    · exact absurd hh hr2
                rcases hhead with ⟨rfl, rfl⟩ | ⟨rfl, rfl⟩
                · rw [e1, e2, hm2ij, hm2ji]
                  exact ⟨rfl, rfl, by omega⟩
                · rw [e1, e2, hm2ij, hm2ji]
                  exact ⟨rfl, rfl, by omega⟩
            · intro a b hab hba
              have h1 : ¬ (a = i ∧ b = j) := by
                rintro ⟨rfl, rfl⟩
                exact hab (List.mem_cons_self _ _)
              have h2 : ¬ (a = j ∧ b = i) := by
                rintro ⟨rfl, rfl⟩
                exact hba (List.mem_cons_self _ _)
              rw [hrest a b (fun hh => hab (List.mem_cons_of_mem _ hh))
                (fun hh => hba (List.mem_cons_of_mem _ hh))]
              exact hother a b h1 h2
    · cases h

/-- A completed symmetric `fill` sets every cell of `[1..n] × [1..n]`, inside the
matrix, to the value of its mirror cell. -/
theorem symmetricFill_ok {S V : Type} (f : SymmetricFiller S V) (X Y : List S)
    (m m' : Distmat V) (h : symmetricFill f X Y m = (.ok (), m')) :
    X.length = Y.length ∧
    ∀ i j, 1 ≤ i → i ≤ X.length → 1 ≤ j → j ≤ X.length →
      m'.get i j = m'.get j i ∧ ∃ d, m'.get i j = .ok (some d) := by
  unfold symmetricFill at h
  split at h
  · rename_i hlen
    refine ⟨hlen, ?_⟩
    obtain ⟨hR, hC, hcov, -⟩ := fillCells_ok f X Y (lowerTriangle X.length) m m' h
    intro i j hi1 hi2 hj1 hj2
    have hmem : (i, j) ∈ lowerTriangle X.length ∨ (j, i) ∈ lowerTriangle X.length := by
      rw [mem_lowerTriangle, mem_lowerTriangle]
      omega
    obtain ⟨e1, e2, b1⟩ := hcov i j hmem
    obtain ⟨-, -, b2⟩ := hcov j i hmem.symm
    have g1 : m'.get i j = .ok (m'.cells i j) := by
      unfold Distmat.get
      rw [if_pos (by omega)]
    have g2 : m'.get j i = .ok (m'.cells j i) := by
      unfold Distmat.get
      rw [if_pos (by omega)]
    refine ⟨by rw [g1, g2, e1], ?_⟩
    obtain ⟨d, hd⟩ := Option.isSome_iff_exists.1 e2
    exact ⟨d, by rw [g1, hd]⟩
  · cases h

/-- C8: when `distmat_loop` runs the symmetric filler on `X` and `Y` and returns
normally, `X` and `Y` have one length `n`, and the resulting matrix is
symmetric: `get(i,j) = get(j,i)` for all `i`, `j` in `[1..n]`, both set; for an
`n × n` matrix that is `get(i,j) = get(j,i)` for all `i`, `j`. -/
theorem distmat_loop_symmetric_fill {S V SEXP DM DC : Type}
    (F : Factories (Distmat V) EngineError SEXP DM DC (SymmetricFiller S V))
    (asSeries : SEXP → List S)
    (D X Y DIST DIST_ARGS FILL_TYPE MAT_TYPE ENDPOINTS : SEXP)
    (m m' : Distmat V) (r : RNil)
    (h : distmat_loop F (fun f X Y => symmetricFill f (asSeries X) (asSeries Y))
      D X Y DIST DIST_ARGS FILL_TYPE MAT_TYPE ENDPOINTS m = (.ok r, m')) :
    (asSeries X).length = (asSeries Y).length ∧
    (∀ i j, 1 ≤ i → i ≤ (asSeries X).length → 1 ≤ j → j ≤ (asSeries X).length →
      m'.get i j = m'.get j i ∧ ∃ d, m'.get i j = .ok (some d)) ∧
    (m'.R = (asSeries X).length → m'.C = (asSeries X).length →
      ∀ i j, m'.get i j = m'.get j i) := by
  have hfill : ∃ (f : SymmetricFiller S V) (m3 : Distmat V),
      symmetricFill f (asSeries X) (asSeries Y) m3 = (.ok (), m') := by
    simp only [distmat_loop] at h
    split at h
    · cases h
    · split at h
      · cases h
      · split at h
        · cases h
        · rename_i filler s3 _
          split at h
          · cases h
          · rename_i u s4 hs
            cases h
            exact ⟨filler, s3, hs⟩
  obtain ⟨f, m3, hs⟩ := hfill
  obtain ⟨hlen, hsym⟩ := symmetricFill_ok f (asSeries X) (asSeries Y) m3 m' hs
  refine ⟨hlen, hsym, ?_⟩
  intro hR hC i j
  by_cases hin : 1 ≤ i ∧ i ≤ (asSeries X).length ∧ 1 ≤ j ∧ j ≤ (asSeries X).length
  · exact (hsym i j hin.1 hin.2.1 hin.2.2.1 hin.2.2.2).1
  · unfold Distmat.get
    rw [if_neg (by omega), if_neg (by omega)]

/-- C8 at a concrete call: `X = Y = [10, 20]`, distance the sum, on an unset
2 × 2 matrix; both off-diagonal cells end up `30`. -/
theorem distmat_loop_symmetric_fill_witness :
    distmat_loop sumFactories (fun f X Y => symmetricFill f (id X) (id Y))
      [] [10, 20] [10, 20] [] [] [] [] [] emptyDistmat2 = (.ok RNil.R_NilValue, filledDistmat2) ∧
    ((id [10, 20] : List Nat).length = (id [10, 20] : List Nat).length ∧
      (∀ i j, 1 ≤ i → i ≤ (id [10, 20] : List Nat).length → 1 ≤ j →
        j ≤ (id [10, 20] : List Nat).length →
        filledDistmat2.get i j = filledDistmat2.get j i ∧
          ∃ d, filledDistmat2.get i j = .ok (some d)) ∧
      (filledDistmat2.R = (id [10, 20] : List Nat).length →
        filledDistmat2.C = (id [10, 20] : List Nat).length →
        ∀ i j, filledDistmat2.get i j = filledDistmat2.get j i)) ∧
    filledDistmat2.get 1 2 = .ok (some 30) ∧ filledDistmat2.get 2 1 = .ok (some 30) ∧
    filledDistmat2.get 2 2 = .ok (some 40) :=
  ⟨rfl,
   distmat_loop_symmetric_fill sumFactories id [] [10, 20] [10, 20] [] [] [] [] []
     emptyDistmat2 filledDistmat2 RNil.R_NilValue rfl,
   rfl, rfl, rfl⟩

end dtwclust
